import Mathlib

/-!
Verification development for the IIHF pre-ranking engine
(`iihf/objects.py`, `iihf/data.py`, `iihf/cli.py`, `iihf/ranking_diagram.py`).

The Python modules are shallowly embedded below:

* machine integers become `ℤ` (Python ints are unbounded, so no wrap-around);
* `math.inf` sentinels (`superevent_rank` of a placeholder, `four_year_rank`
  before ranking) become `Option.none`;
* a pandas `DataFrame` of placements — rows indexed by participants, columns by
  superevents — becomes a list of columns, each column a list of
  `Option Placement` cells aligned by row position (`none` = `NaN`);
* Python dicts become association lists with insert-or-replace semantics
  preserving first-insertion order, keyed up to `=`;
* fallible code returns `Except String`;
* the decay coefficient `max(0, 1 - 0.25*w)` multiplies integer point values;
  since `0.25*w`, the coefficient, and `coef * points` are all exactly
  representable dyadic rationals for the magnitudes involved, Python's float
  arithmetic is exact here, and `int(coef * points)` equals the truncated
  integer division of `max 0 (4 - w) * points` by `4`.  The executable
  embedding uses that integer form; `contrib_eq_floor` relates it to the
  rational formula `⌊max 0 (1 - w/4) * p⌋`.
-/

namespace IIHF

/-- The two superevent categories (`OlympicGames` and `Championship` subclasses
of `SuperEvent` in `objects.py`). -/
inductive SECategory : Type
  | OlympicGames : SECategory
  | Championship : SECategory
deriving DecidableEq, Repr

/-- `order_in_year` class attribute: `OlympicGames.order_in_year = 0`,
`Championship.order_in_year = 1`. -/
def SECategory.order_in_year : SECategory → ℕ
  | .OlympicGames => 0
  | .Championship => 1

/-- A superevent (`SuperEvent` in `objects.py`): a year together with its
category. -/
structure SuperEvent : Type where
  year : ℤ
  cat : SECategory
deriving DecidableEq, Repr

def SuperEvent.order_in_year (s : SuperEvent) : ℕ := s.cat.order_in_year

/-- `SuperEvent.whole_years_behind` (`objects.py` lines 102-109):
`years = other.year - self.year`, decremented by one when the older
superevent's within-year order is later than the target's.  Here `t` plays the
role of `self` (the older superevent) and `s` of `other` (the target). -/
def whole_years_behind (t s : SuperEvent) : ℤ :=
  if t.order_in_year > s.order_in_year then (s.year - t.year) - 1 else s.year - t.year

/-- A placement (`Placement` dataclass in `objects.py`).
`superevent_rank : Option ℤ` uses `none` for `math.inf` (placeholders);
`four_year_rank : Option ℕ` uses `none` for the initial `math.inf` sentinel. -/
structure Placement : Type where
  original_participant_code : Option String
  superevent_rank : Option ℤ
  superevent_points : ℤ := 0
  four_year_rank : Option ℕ := Option.none
  four_year_points : ℤ := 0
deriving DecidableEq, Repr

/-- `Placement.get_four_year_rank_key`: the tuple
`(-four_year_points, -superevent_points)`. -/
def Placement.get_four_year_rank_key (pl : Placement) : ℤ × ℤ :=
  (-pl.four_year_points, -pl.superevent_points)

/-! ## Points Formula Builder (`get_formula`, `objects.py` lines 152-173) -/

/-- `point_breaks = [1, 2, 4, 8]`. -/
def point_breaks : List ℕ := [1, 2, 4, 8]

/-- The loop body of `get_formula`: starting from the current `points` value
and the current 0-based loop index `i`, produce the next `m` entries of
`points_list`.  Each step appends `points`, subtracts 20, and subtracts a
further 20 when `i + 1 ∈ point_breaks`. -/
def buildPoints : ℕ → ℤ → ℕ → List ℤ
  | 0, _, _ => []
  | m + 1, pts, i =>
      pts :: buildPoints m (pts - 20 - (if (i + 1) ∈ point_breaks then 20 else 0)) (i + 1)

/-- The initial `points` value of `get_formula`:
`20 * max_rank + sum(max_rank >= pb + 1 for pb in point_breaks) * 20`. -/
def startPoints (n : ℕ) : ℤ :=
  20 * (n : ℤ) + (point_breaks.countP (fun pb => decide (n ≥ pb + 1)) : ℤ) * 20

/-- The precomputed `points_list` of `get_formula` for field size `n`. -/
def points_list (n : ℕ) : List ℤ := buildPoints n (startPoints n) 0

/-- The inner `_rank_to_points` closure of `get_formula`: fails when the rank
is outside `[1, max_rank]`, otherwise looks up `points_list[rank - 1]`. -/
def rank_to_points (max_rank rank : ℤ) : Except String ℤ :=
  if rank < 1 ∨ rank > max_rank then
    Except.error "rank is out of range"
  else
    Except.ok ((points_list max_rank.toNat).getD (rank - 1).toNat 0)

/-- `get_formula` (`objects.py` lines 152-173): fails for non-positive
`max_rank`, otherwise returns the rank-to-points closure. -/
def get_formula (max_rank : ℤ) : Except String (ℤ → Except String ℤ) :=
  if max_rank ≤ 0 then Except.error "max_rank must be positive"
  else Except.ok (fun rank => rank_to_points max_rank rank)

/-- `Except.isOk` as a plain boolean discriminator. -/
def isOkB {α : Type} : Except String α → Bool
  | Except.ok _ => true
  | Except.error _ => false

/-! ### Closed form of `points_list` -/

theorem buildPoints_length (m : ℕ) : ∀ pts i, (buildPoints m pts i).length = m := by
  induction m with
  | zero => intro pts i; rfl
  | succ m ih => intro pts i; simp [buildPoints, ih]

theorem point_breaks_count_split (i k : ℕ) :
    ((if (i + 1) ∈ point_breaks then (1 : ℕ) else 0) +
        point_breaks.countP (fun pb => decide (i + 1 < pb ∧ pb ≤ i + 1 + k))) =
      point_breaks.countP (fun pb => decide (i < pb ∧ pb ≤ i + (k + 1))) := by
  simp only [point_breaks, List.countP_cons, List.countP_nil, List.mem_cons,
    List.not_mem_nil, or_false, decide_eq_true_eq]
  split_ifs <;> omega

/-- Entry `k` of the loop output: the starting value minus `20 * k` minus `20`
for every point break strictly between the starting index and index `k`. -/
theorem buildPoints_getElem? (m : ℕ) :
    ∀ pts i k, k < m →
      (buildPoints m pts i)[k]? =
        some (pts - 20 * (k : ℤ) -
          20 * (point_breaks.countP (fun pb => decide (i < pb ∧ pb ≤ i + k)) : ℤ)) := by
  induction m with
  | zero => intro pts i k hk; omega
  | succ m ih =>
    intro pts i k hk
    match k with
    | 0 =>
      have h0 : point_breaks.countP (fun pb => decide (i < pb ∧ pb ≤ i + 0)) = 0 := by
        apply List.countP_eq_zero.mpr
        intro a _
        simp only [decide_eq_true_eq]
        omega
      rw [buildPoints]
      simp only [List.getElem?_cons_zero, h0]
      norm_num
    | k + 1 =>
      have hk' : k < m := by omega
      have := ih (pts - 20 - (if (i + 1) ∈ point_breaks then 20 else 0)) (i + 1) k hk'
      have hsplit := point_breaks_count_split i k
      simp only [buildPoints, List.getElem?_cons_succ, this]
      congr 1
      have hmem : ((if (i + 1) ∈ point_breaks then (20 : ℤ) else 0)) =
          20 * ((if (i + 1) ∈ point_breaks then (1 : ℕ) else 0) : ℤ) := by
        split_ifs <;> simp
      rw [hmem]
      push_cast [← hsplit]
      ring

theorem countP_initial (n : ℕ) (hn : 1 ≤ n) :
    point_breaks.countP (fun pb => decide (n ≥ pb + 1)) =
      point_breaks.countP (fun pb => decide (0 < pb ∧ pb ≤ 0 + (n - 1))) := by
  simp only [point_breaks, List.countP_cons, List.countP_nil, decide_eq_true_eq]
  split_ifs <;> omega

/-- The value at 1-based rank `r` for a field of size `n ≥ 1`. -/
theorem points_list_getElem? (n : ℕ) (k : ℕ) (hk : k < n) :
    (points_list n)[k]? =
      some (startPoints n - 20 * (k : ℤ) -
        20 * (point_breaks.countP (fun pb => decide (0 < pb ∧ pb ≤ 0 + k)) : ℤ)) :=
  buildPoints_getElem? n (startPoints n) 0 k hk

theorem rank_to_points_ok (N r : ℤ) (h1 : 1 ≤ r) (h2 : r ≤ N) :
    rank_to_points N r =
      Except.ok (startPoints N.toNat - 20 * ((r - 1).toNat : ℤ) -
        20 * (point_breaks.countP
          (fun pb => decide (0 < pb ∧ pb ≤ 0 + (r - 1).toNat)) : ℤ)) := by
  have hcond : ¬ (r < 1 ∨ r > N) := by omega
  have hk : (r - 1).toNat < N.toNat := by omega
  rw [rank_to_points, if_neg hcond, List.getD_eq_getElem?_getD,
    points_list_getElem? N.toNat (r - 1).toNat hk]
  rfl

theorem countP_mono_range (l : List ℕ) (k k' : ℕ) (h : k ≤ k') :
    l.countP (fun pb => decide (0 < pb ∧ pb ≤ 0 + k)) ≤
      l.countP (fun pb => decide (0 < pb ∧ pb ≤ 0 + k')) := by
  apply List.countP_mono_left
  intro a _
  simp only [decide_eq_true_eq]
  omega

/-- Claim C6 helper: characterisation of the error behaviour of the formula. -/
theorem formula_error_characterisation (N : ℤ) :
    (isOkB (get_formula N) = true ↔ 1 ≤ N) ∧
      (∀ r : ℤ, isOkB (rank_to_points N r) = true ↔ (1 ≤ r ∧ r ≤ N)) := by
  constructor
  · rw [get_formula]
    split_ifs with h <;> simp [isOkB] <;> omega
  · intro r
    rw [rank_to_points]
    split_ifs with h <;> simp [isOkB] <;> omega

/-- Claim C6: `get_formula` raises a domain error exactly for field sizes
`N ≤ 0`, and for `N ≥ 1` the returned rank-to-points function raises a domain
error exactly when the queried rank lies outside `[1, N]`, returning a value
for every rank in `[1, N]`.  (`objects.py` lines 152-173.) -/
theorem c6_formula_domain_errors (N : ℤ) (hN : 1 ≤ N) :
    isOkB (get_formula N) = true ∧
      (∀ r : ℤ, 1 ≤ r → r ≤ N → isOkB (rank_to_points N r) = true) ∧
      (∀ r : ℤ, r < 1 ∨ r > N → isOkB (rank_to_points N r) = false) ∧
      (∀ M : ℤ, M ≤ 0 → isOkB (get_formula M) = false) := by
  refine ⟨(formula_error_characterisation N).1.mpr hN, ?_, ?_, ?_⟩
  · intro r h1 h2
    exact ((formula_error_characterisation N).2 r).mpr ⟨h1, h2⟩
  · intro r hr
    have := (formula_error_characterisation N).2 r
    rcases h : isOkB (rank_to_points N r) with _ | _
    · rfl
    · exfalso; have := this.mp h; omega
  · intro M hM
    rcases h : isOkB (get_formula M) with _ | _
    · rfl
    · exfalso
      have := (formula_error_characterisation M).1.mp h
      omega

/-- Witness for C6 at `N = 3`: rank 2 succeeds, ranks 0 and 4 fail, and
`get_formula 0` fails. -/
theorem c6_formula_domain_errors_witness :
    isOkB (get_formula 3) = true ∧ isOkB (rank_to_points 3 2) = true ∧
      isOkB (rank_to_points 3 0) = false ∧ isOkB (rank_to_points 3 4) = false ∧
      isOkB (get_formula 0) = false := by
  have h := c6_formula_domain_errors 3 (by norm_num)
  exact ⟨h.1, h.2.1 2 (by norm_num) (by norm_num), h.2.2.1 0 (by norm_num),
    h.2.2.1 4 (by norm_num), h.2.2.2 0 (by norm_num)⟩

/-- Claim C5, counterexample: for field size `N = 10` the code's table gives
rank 1 the value `280` — `20·10 + 20·4`, since all four thresholds `1,2,4,8`
satisfy `10 ≥ pb + 1` — and not the value `260` stated in the claim's example
table (the repository's own `test_get_formula` carries the same `260` table,
contradicting both the code and the claim's own top-score formula). -/
theorem c5_formula_table_counterexample :
    rank_to_points 10 1 = Except.ok 280 ∧ rank_to_points 10 1 ≠ Except.ok 260 := by
  refine ⟨rfl, ?_⟩
  intro h
  rw [show rank_to_points 10 1 = Except.ok 280 from rfl] at h
  simp at h

/-- Claim C5 as amended: for every positive field size `N`, rank 1 receives
`20·N + 20·(count of thresholds pb ∈ {1,2,4,8} with N ≥ pb+1)`, the table is
non-increasing in rank, the last rank `N` receives exactly 20 points,
`N = 3` yields `{1:100, 2:60, 3:20}`, and `N = 10` yields
`{1:280, 2:240, 3:200, 4:180, 5:140, 6:120, 7:100, 8:80, 9:40, 10:20}`
(the table the code actually produces, correcting the claim's `N = 10`
example). -/
theorem c5_formula_table_amended :
    (∀ N : ℤ, 1 ≤ N →
      (rank_to_points N 1 =
          Except.ok (20 * N +
            20 * (point_breaks.countP (fun pb : ℕ => decide ((pb : ℤ) + 1 ≤ N)) : ℤ))) ∧
        (∀ r r' v v' : ℤ, 1 ≤ r → r ≤ r' → r' ≤ N →
          rank_to_points N r = Except.ok v → rank_to_points N r' = Except.ok v' →
            v' ≤ v) ∧
        rank_to_points N N = Except.ok 20) ∧
      (rank_to_points 3 1 = Except.ok 100 ∧ rank_to_points 3 2 = Except.ok 60 ∧
        rank_to_points 3 3 = Except.ok 20) ∧
      (rank_to_points 10 1 = Except.ok 280 ∧ rank_to_points 10 2 = Except.ok 240 ∧
        rank_to_points 10 3 = Except.ok 200 ∧ rank_to_points 10 4 = Except.ok 180 ∧
        rank_to_points 10 5 = Except.ok 140 ∧ rank_to_points 10 6 = Except.ok 120 ∧
        rank_to_points 10 7 = Except.ok 100 ∧ rank_to_points 10 8 = Except.ok 80 ∧
        rank_to_points 10 9 = Except.ok 40 ∧ rank_to_points 10 10 = Except.ok 20) := by
  refine ⟨?_, ⟨rfl, rfl, rfl⟩, rfl, rfl, rfl, rfl, rfl, rfl, rfl, rfl, rfl, rfl⟩
  intro N hN
  have hn1 : 1 ≤ N.toNat := by omega
  refine ⟨?_, ?_, ?_⟩
  · rw [rank_to_points_ok N 1 le_rfl hN]
    have h00 : ((1 : ℤ) - 1).toNat = 0 := rfl
    rw [h00]
    have h0 : point_breaks.countP (fun pb => decide (0 < pb ∧ pb ≤ 0 + 0)) = 0 := by
      apply List.countP_eq_zero.mpr
      intro a _
      simp only [decide_eq_true_eq]
      omega
    have hcnt : point_breaks.countP (fun pb => decide (N.toNat ≥ pb + 1)) =
        point_breaks.countP (fun pb : ℕ => decide ((pb : ℤ) + 1 ≤ N)) := by
      apply List.countP_congr
      intro a _
      simp only [decide_eq_true_eq]
      omega
    rw [h0, startPoints, hcnt]
    congr 1
    push_cast
    omega
  · intro r r' v v' h1 hrr' hr'N hv hv'
    have h1' : 1 ≤ r' := by omega
    have hrN : r ≤ N := by omega
    rw [rank_to_points_ok N r h1 hrN] at hv
    rw [rank_to_points_ok N r' h1' hr'N] at hv'
    injection hv with hv
    injection hv' with hv'
    have hkk : (r - 1).toNat ≤ (r' - 1).toNat := by omega
    have hc := countP_mono_range point_breaks (r - 1).toNat (r' - 1).toNat hkk
    omega
  · rw [rank_to_points_ok N N hN le_rfl]
    have he : ((N : ℤ) - 1).toNat = N.toNat - 1 := by omega
    rw [he, startPoints, countP_initial N.toNat hn1]
    congr 1
    omega

/-- Witness for the amended C5 at `N = 4` (a size not pinned by the concrete
tables): the last rank scores 20, rank 1 scores `20·4 + 20·2 = 120`, and the
value at rank 3 is bounded by the value at rank 2. -/
theorem c5_formula_table_amended_witness :
    rank_to_points 4 4 = Except.ok 20 ∧
      rank_to_points 4 1 =
        Except.ok (20 * 4 +
          20 * (point_breaks.countP (fun pb : ℕ => decide ((pb : ℤ) + 1 ≤ 4)) : ℤ)) ∧
      (40 : ℤ) ≤ 80 := by
  refine ⟨(c5_formula_table_amended.1 4 (by norm_num)).2.2,
    (c5_formula_table_amended.1 4 (by norm_num)).1, ?_⟩
  exact (c5_formula_table_amended.1 4 (by norm_num)).2.1 2 3 80 40 (by norm_num)
    (by norm_num) (by norm_num) rfl rfl

/-! ## Superevent Merger (`process_placement_dicts`, `objects.py` lines 136-149) -/

/-- Python dict assignment `d[k] = v`: replace in place when the key exists,
otherwise append, preserving first-insertion order. -/
def upsert {κ : Type} [DecidableEq κ] (k : κ) (v : Placement) :
    List (κ × Placement) → List (κ × Placement)
  | [] => [(k, v)]
  | (k2, v2) :: rest => if k2 = k then (k, v) :: rest else (k2, v2) :: upsert k v rest

/-- The first loop of `process_placement_dicts`: fold every event's placements
into `final_placements`, later events overwriting earlier ones per key. -/
def mergeDicts (pds : List (List (String × Placement))) : List (String × Placement) :=
  pds.foldl (fun acc pd => pd.foldl (fun acc2 kv => upsert kv.1 kv.2 acc2) acc) []

/-- `total_participants`: the sum of the event dict sizes. -/
def totalParticipants (pds : List (List (String × Placement))) : ℕ :=
  pds.foldl (fun acc pd => acc + pd.length) 0

/-- A Python loop that replaces each value, aborting on the first raised
exception. -/
def mapExcept {α β : Type} (g : α → Except String β) : List α → Except String (List β)
  | [] => Except.ok []
  | a :: l =>
    match g a with
    | Except.error e => Except.error e
    | Except.ok b => (mapExcept g l).map (fun bs => b :: bs)

/-- The second loop of `process_placement_dicts`: when
`not placement.superevent_points` (i.e. the stored value is falsy — `0` or
missing), look the points up in the formula; a `math.inf` rank would fail the
formula's range check. -/
def assignPointsKV (f : ℤ → Except String ℤ) (kv : String × Placement) :
    Except String (String × Placement) :=
  if kv.2.superevent_points = 0 then
    match kv.2.superevent_rank with
    | Option.none => Except.error "rank is out of range"
    | Option.some r => (f r).map (fun v => (kv.1, { kv.2 with superevent_points := v }))
  else Except.ok kv

/-- `process_placement_dicts` (`objects.py` lines 136-149): union the event
dicts, size the formula by the `total_participants` count, and fill in points
for every placement whose stored value is falsy. -/
def process_placement_dicts (pds : List (List (String × Placement))) :
    Except String (List (String × Placement)) :=
  match get_formula (totalParticipants pds : ℤ) with
  | Except.error e => Except.error e
  | Except.ok f => mapExcept (assignPointsKV f) (mergeDicts pds)

/-- The placement dicts of the repository's own
`test_process_placement_dicts`: event A with ranks `{1, 2, 2}` and explicit
points `100, 40, 40`, then event B with one rank-1 placement of 20 points. -/
def c1_event_a : List (String × Placement) :=
  [("AAA", { original_participant_code := Option.some "AAA", superevent_rank := Option.some 1,
             superevent_points := 100 }),
   ("BBB", { original_participant_code := Option.some "BBB", superevent_rank := Option.some 2,
             superevent_points := 40 }),
   ("CCC", { original_participant_code := Option.some "CCC", superevent_rank := Option.some 2,
             superevent_points := 40 })]

def c1_event_b : List (String × Placement) :=
  [("DDD", { original_participant_code := Option.some "DDD", superevent_rank := Option.some 1,
             superevent_points := 20 })]

/-- Claim C1, evaluation at the failing input: merging event A (`ranks
{1, 2, 2}`) with event B leaves event B's rank-1 participant `DDD` at
consolidated rank 1 — the code performs no offset re-ranking at all and keeps
every explicitly supplied point value — whereas the claim requires `DDD` to
end at rank 5 (and the repository's own test expects rank 4 with recomputed
points `{120, 80, 80, 20}`). -/
theorem c1_merger_no_offset_eval :
    process_placement_dicts [c1_event_a, c1_event_b] =
        Except.ok
          [("AAA", { original_participant_code := Option.some "AAA",
                     superevent_rank := Option.some 1, superevent_points := 100 }),
           ("BBB", { original_participant_code := Option.some "BBB",
                     superevent_rank := Option.some 2, superevent_points := 40 }),
           ("CCC", { original_participant_code := Option.some "CCC",
                     superevent_rank := Option.some 2, superevent_points := 40 }),
           ("DDD", { original_participant_code := Option.some "DDD",
                     superevent_rank := Option.some 1, superevent_points := 20 })] ∧
      (Option.some (1 : ℤ) ≠ Option.some 5) := by
  refine ⟨rfl, ?_⟩
  simp

/-- Claim C8, counterexample: a placement whose explicitly supplied point
value is `0` does not keep it — `if not placement.superevent_points` treats
`0` as falsy, so the placement receives the formula-derived 20 points. -/
theorem c8_zero_points_counterexample :
    process_placement_dicts
        [[("AAA", { original_participant_code := Option.some "AAA",
                    superevent_rank := Option.some 1, superevent_points := 0 })]] =
        Except.ok
          [("AAA", { original_participant_code := Option.some "AAA",
                     superevent_rank := Option.some 1, superevent_points := 20 })] ∧
      (20 : ℤ) ≠ 0 := by
  refine ⟨rfl, ?_⟩
  norm_num

theorem mapExcept_forall2 {α β : Type} (g : α → Except String β)
    (R : α → β → Prop) (hg : ∀ a b, g a = Except.ok b → R a b) :
    ∀ (l : List α) (res : List β), mapExcept g l = Except.ok res → List.Forall₂ R l res := by
  intro l
  induction l with
  | nil =>
    intro res h
    rw [mapExcept] at h
    injection h with h
    rw [← h]
    exact List.Forall₂.nil
  | cons a l ih =>
    intro res h
    rw [mapExcept] at h
    rcases ha : g a with e | b
    · rw [ha] at h; cases h
    · rw [ha] at h
      rcases hl : mapExcept g l with e' | bs
      · rw [hl] at h; cases h
      · rw [hl] at h
        injection h with h
        rw [← h]
        exact List.Forall₂.cons (hg a b ha) (ih bs hl)

theorem assignPointsKV_ok (g : ℤ → Except String ℤ) (kv out : String × Placement)
    (h : assignPointsKV g kv = Except.ok out) :
    (kv.2.superevent_points ≠ 0 ∧ out = kv) ∨
      (kv.2.superevent_points = 0 ∧ ∃ r v, kv.2.superevent_rank = Option.some r ∧
        g r = Except.ok v ∧ out = (kv.1, { kv.2 with superevent_points := v })) := by
  rw [assignPointsKV] at h
  split_ifs at h with h0
  · right
    refine ⟨h0, ?_⟩
    split at h
    · cases h
    · rename_i r hr
      rcases hv : g r with e | v
      · rw [hv] at h; cases h
      · rw [hv] at h
        injection h with h
        exact ⟨r, v, hr, hv, h.symm⟩
  · left
    injection h with h
    exact ⟨h0, h.symm⟩

/-- Claim C8 as amended: the merger leaves unchanged every consolidated
placement whose stored point value is nonzero, and assigns formula-derived
points exactly to the placements whose stored value is zero — a supplied `0`
counts as absent, because the code tests Python truthiness rather than
presence. -/
theorem c8_explicit_points_amended (pds : List (List (String × Placement)))
    (res : List (String × Placement))
    (h : process_placement_dicts pds = Except.ok res) :
    List.Forall₂ (fun kv kv2 : String × Placement =>
        kv2.1 = kv.1 ∧
        kv2.2.original_participant_code = kv.2.original_participant_code ∧
        kv2.2.superevent_rank = kv.2.superevent_rank ∧
        (kv.2.superevent_points ≠ 0 → kv2.2 = kv.2) ∧
        (kv.2.superevent_points = 0 → ∃ r v, kv.2.superevent_rank = Option.some r ∧
          rank_to_points (totalParticipants pds : ℤ) r = Except.ok v ∧
          kv2.2 = { kv.2 with superevent_points := v }))
      (mergeDicts pds) res := by
  rw [process_placement_dicts] at h
  rcases hf : get_formula (totalParticipants pds : ℤ) with e | f
  · rw [hf] at h; cases h
  · rw [hf] at h
    have hfeq : f = fun rank => rank_to_points (totalParticipants pds : ℤ) rank := by
      rw [get_formula] at hf
      split_ifs at hf
      injection hf with hf
      exact hf.symm
    apply mapExcept_forall2 (assignPointsKV f) _ _ _ res h
    intro kv kv2 hkv
    rcases assignPointsKV_ok f kv kv2 hkv with ⟨h0, rfl⟩ | ⟨h0, r, v, hr, hv, rfl⟩
    · exact ⟨rfl, rfl, rfl, fun _ => rfl, fun hc => absurd hc h0⟩
    · refine ⟨rfl, rfl, rfl, fun hc => absurd h0 hc, fun _ => ⟨r, v, hr, ?_, rfl⟩⟩
      rw [← hv, hfeq]

/-- Witness for the amended C8: one nonzero-points placement is kept verbatim
and one zero-points placement receives the formula value for a field of 2. -/
theorem c8_explicit_points_amended_witness :
    List.Forall₂ (fun kv kv2 : String × Placement =>
        kv2.1 = kv.1 ∧
        kv2.2.original_participant_code = kv.2.original_participant_code ∧
        kv2.2.superevent_rank = kv.2.superevent_rank ∧
        (kv.2.superevent_points ≠ 0 → kv2.2 = kv.2) ∧
        (kv.2.superevent_points = 0 → ∃ r v, kv.2.superevent_rank = Option.some r ∧
          rank_to_points (totalParticipants
            [[("AAA", { original_participant_code := Option.some "AAA",
                        superevent_rank := Option.some 1, superevent_points := 100 }),
              ("BBB", { original_participant_code := Option.some "BBB",
                        superevent_rank := Option.some 2, superevent_points := 0 })]] : ℤ)
            r = Except.ok v ∧
          kv2.2 = { kv.2 with superevent_points := v }))
      (mergeDicts
        [[("AAA", { original_participant_code := Option.some "AAA",
                    superevent_rank := Option.some 1, superevent_points := 100 }),
          ("BBB", { original_participant_code := Option.some "BBB",
                    superevent_rank := Option.some 2, superevent_points := 0 })]])
      [("AAA", { original_participant_code := Option.some "AAA",
                 superevent_rank := Option.some 1, superevent_points := 100 }),
       ("BBB", { original_participant_code := Option.some "BBB",
                 superevent_rank := Option.some 2, superevent_points := 20 })] :=
  c8_explicit_points_amended _ _ rfl

/-! ## Event loading (`load_event`, `data.py` lines 44-63) -/

/-- A row of the participants directory (`Participant` in `objects.py`,
restricted to the fields the loaders use; equality of the Python objects is by
`code`). -/
structure PRec : Type where
  code : String
  name_en : String := ""
  parent : Option String := Option.none
deriving DecidableEq, Repr

/-- `Participant.get_participant`: dictionary lookup by code (`None` when the
code is unknown). -/
def find_participant (dir : List PRec) (code : String) : Option PRec :=
  dir.find? (fun p => p.code == code)

/-- The row loop of `load_event`.  Keys of the accumulated dict are
post-redirection participants (encoded by code), or `none` for Python's
`None`.  Note the order of operations, faithful to the source: the duplicate
check uses the participant looked up from the row's raw code, *before* parent
redirection; only then is the placement stored under the parent's key. -/
def loadEventRows (dir : List PRec) :
    List (String × ℤ × ℤ) → List (Option String × Placement) →
      Except String (List (Option String × Placement))
  | [], acc => Except.ok acc
  | (code, rank, pts) :: rest, acc =>
    if acc.any (fun kv => decide (kv.1 = (find_participant dir code).map PRec.code)) then
      Except.error ("duplicate placement for " ++ code)
    else
      match find_participant dir code with
      | Option.none => Except.error "AttributeError: NoneType has no attribute parent"
      | Option.some p =>
        loadEventRows dir rest
          (upsert
            (match p.parent with
             | Option.none => Option.some p.code
             | Option.some par => (find_participant dir par).map PRec.code)
            { original_participant_code := Option.some code,
              superevent_rank := Option.some rank,
              superevent_points := pts } acc)

/-- `load_event` (`data.py` lines 44-63), restricted to the placement rows of
one sheet: each row is `(participant code, rank, points)` with `0` standing
for an absent points cell. -/
def load_event (dir : List PRec) (rows : List (String × ℤ × ℤ)) :
    Except String (List (Option String × Placement)) :=
  loadEventRows dir rows []

theorem loadEventRows_cons (dir : List PRec) (code : String) (rank pts : ℤ)
    (rest : List (String × ℤ × ℤ)) (acc : List (Option String × Placement)) :
    loadEventRows dir ((code, rank, pts) :: rest) acc =
      if acc.any (fun kv => decide (kv.1 = (find_participant dir code).map PRec.code)) then
        Except.error ("duplicate placement for " ++ code)
      else
        match find_participant dir code with
        | Option.none => Except.error "AttributeError: NoneType has no attribute parent"
        | Option.some p =>
          loadEventRows dir rest
            (upsert
              (match p.parent with
               | Option.none => Option.some p.code
               | Option.some par => (find_participant dir par).map PRec.code)
              { original_participant_code := Option.some code,
                superevent_rank := Option.some rank,
                superevent_points := pts } acc) := rfl

def c7_dir : List PRec :=
  [{ code := "P", name_en := "Parent", parent := Option.none },
   { code := "X", name_en := "Child X", parent := Option.some "P" },
   { code := "Y", name_en := "Child Y", parent := Option.some "P" }]

/-- Claim C7, counterexample: two source codes `X` and `Y` attributed to the
same parent `P` do **not** abort the load — the duplicate check runs on the
pre-redirection participant, so the second placement silently overwrites the
first under the parent's key and the event loads successfully. -/
theorem c7_parent_duplicate_counterexample :
    load_event c7_dir [("X", 1, 0), ("Y", 2, 0)] =
        Except.ok
          [(Option.some "P", { original_participant_code := Option.some "Y",
                               superevent_rank := Option.some 2, superevent_points := 0 })] ∧
      (∀ e : String, load_event c7_dir [("X", 1, 0), ("Y", 2, 0)] ≠ Except.error e) := by
  refine ⟨rfl, ?_⟩
  intro e h
  rw [show load_event c7_dir [("X", 1, 0), ("Y", 2, 0)] =
      Except.ok
        [(Option.some "P", { original_participant_code := Option.some "Y",
                             superevent_rank := Option.some 2, superevent_points := 0 })]
    from rfl] at h
  cases h

theorem upsert_keys_mono {κ : Type} [DecidableEq κ] (k0 k : κ) (v : Placement) :
    ∀ acc : List (κ × Placement), k0 ∈ acc.map Prod.fst →
      k0 ∈ (upsert k v acc).map Prod.fst := by
  intro acc
  induction acc with
  | nil => intro h; cases h
  | cons kv rest ih =>
    rcases kv with ⟨k2, v2⟩
    intro h
    rw [upsert]
    simp only [List.map_cons, List.mem_cons] at h
    split_ifs with hk
    · simp only [List.map_cons, List.mem_cons]
      rcases h with h | h
      · left; rw [h, hk]
      · right; exact h
    · simp only [List.map_cons, List.mem_cons]
      rcases h with h | h
      · left; exact h
      · right; exact ih h

theorem find_participant_code (dir : List PRec) (c : String) (pr : PRec)
    (h : find_participant dir c = Option.some pr) : pr.code = c := by
  have := List.find?_some h
  exact eq_of_beq this

/-- If the accumulated dict already contains the key of a code that occurs in
the remaining rows, the loader fails. -/
theorem loadEventRows_dup_err (dir : List PRec) (c : String) (pr : PRec)
    (hf : find_participant dir c = Option.some pr) :
    ∀ (rows : List (String × ℤ × ℤ)) (acc : List (Option String × Placement)),
      Option.some c ∈ acc.map Prod.fst → (∃ r p, (c, r, p) ∈ rows) →
        isOkB (loadEventRows dir rows acc) = false := by
  intro rows
  induction rows with
  | nil =>
    intro acc _ hocc
    rcases hocc with ⟨r, p, hmem⟩
    cases hmem
  | cons row rest ih =>
    intro acc hkey hocc
    rcases row with ⟨code, rank, pts⟩
    rw [loadEventRows_cons]
    by_cases hdup :
        acc.any (fun kv => decide (kv.1 = (find_participant dir code).map PRec.code)) = true
    · rw [if_pos hdup]; rfl
    · rw [if_neg hdup]
      have hcode : code ≠ c := by
        intro he
        apply hdup
        apply List.any_eq_true.mpr
        rcases List.mem_map.mp hkey with ⟨kv, hmem, hk⟩
        refine ⟨kv, hmem, ?_⟩
        rw [he, hf]
        simp only [Option.map_some', decide_eq_true_eq]
        rw [hk, find_participant_code dir c pr hf]
      split
      · rfl
      · apply ih
        · exact upsert_keys_mono _ _ _ acc hkey
        · rcases hocc with ⟨r2, p2, hmem⟩
          rcases List.mem_cons.mp hmem with heq | h2
          · exfalso
            injection heq with h1 _
            exact hcode h1.symm
          · exact ⟨r2, p2, h2⟩

theorem upsert_self_key_mem {κ : Type} [DecidableEq κ] (k : κ) (v : Placement)
    (l : List (κ × Placement)) : k ∈ (upsert k v l).map Prod.fst := by
  induction l with
  | nil => simp [upsert]
  | cons kv rest ihl =>
    rcases kv with ⟨ka, va⟩
    rw [upsert]
    split_ifs with hk
    · simp
    · simp only [List.map_cons, List.mem_cons]
      exact Or.inr ihl

/-- Claim C7 as amended: the loader aborts with a duplicate-placement error
exactly when a row's *pre-redirection* participant already appears as a stored
key.  In particular, a repeated code that resolves to a parentless participant
always aborts the load; two distinct codes attributed to the same parent (see
the counterexample) silently overwrite instead. -/
theorem c7_duplicate_amended (dir : List PRec) (c : String) (pr : PRec)
    (r1 p1 r2 p2 : ℤ) (l1 l2 l3 : List (String × ℤ × ℤ))
    (hf : find_participant dir c = Option.some pr) (hpar : pr.parent = Option.none) :
    isOkB (load_event dir (l1 ++ ((c, r1, p1) :: (l2 ++ ((c, r2, p2) :: l3))))) = false := by
  rw [load_event]
  generalize ([] : List (Option String × Placement)) = acc
  induction l1 generalizing acc with
  | nil =>
    rw [List.nil_append, loadEventRows_cons]
    by_cases hdup :
        acc.any (fun kv => decide (kv.1 = (find_participant dir c).map PRec.code)) = true
    · rw [if_pos hdup]; rfl
    · rw [if_neg hdup, hf]
      show isOkB (loadEventRows dir (l2 ++ ((c, r2, p2) :: l3))
        (upsert
          (match pr.parent with
           | Option.none => Option.some pr.code
           | Option.some par => (find_participant dir par).map PRec.code)
          { original_participant_code := Option.some c,
            superevent_rank := Option.some r1, superevent_points := p1 } acc)) = false
      have hkeyeq : (match pr.parent with
          | Option.none => Option.some pr.code
          | Option.some par => (find_participant dir par).map PRec.code) = Option.some c := by
        rw [hpar]
        show Option.some pr.code = Option.some c
        rw [find_participant_code dir c pr hf]
      rw [hkeyeq]
      apply loadEventRows_dup_err dir c pr hf
      · exact upsert_self_key_mem _ _ _
      · exact ⟨r2, p2, List.mem_append_right _ (List.mem_cons_self _ _)⟩
  | cons row rest ih =>
    rcases row with ⟨code0, rank0, pts0⟩
    rw [List.cons_append, loadEventRows_cons]
    by_cases hdup :
        acc.any (fun kv => decide (kv.1 = (find_participant dir code0).map PRec.code)) = true
    · rw [if_pos hdup]; rfl
    · rw [if_neg hdup]
      split
      · rfl
      · exact ih _

/-- Witness for the amended C7: a directory with the single parentless
participant `Q` and an event sheet listing `Q` twice fails to load. -/
theorem c7_duplicate_amended_witness :
    isOkB (load_event [{ code := "Q", name_en := "Q", parent := Option.none }]
      [("Q", 1, 0), ("Q", 2, 0)]) = false :=
  c7_duplicate_amended [{ code := "Q", name_en := "Q", parent := Option.none }]
    "Q" { code := "Q", name_en := "Q", parent := Option.none } 1 0 2 0 [] [] [] rfl rfl

/-! ## Rolling Aggregator (`process_four_years`, `data.py` lines 91-125)

The pandas DataFrame becomes a list of columns in chronological order, each
column a superevent together with its cells; all columns share the row index,
so cells are aligned by position and `Option.none` stands for `NaN`. -/

abbrev Cells := List (Option Placement)

abbrev Table := List (SuperEvent × Cells)

/-- `LIMITS = {OlympicGames: 1, Championship: 4}` (`data.py` line 19). -/
def LIMITS : SECategory → ℕ
  | .OlympicGames => 1
  | .Championship => 4

/-- `LIMIT_YEARS = 4` (`data.py` line 20). -/
def LIMIT_YEARS : ℤ := 4

/-- The `processed_superevents` counter dict, as an (OlympicGames count,
Championship count) pair. -/
def getCount : ℕ × ℕ → SECategory → ℕ
  | (og, _), .OlympicGames => og
  | (_, ch), .Championship => ch

def incCount : ℕ × ℕ → SECategory → ℕ × ℕ
  | (og, ch), .OlympicGames => (og + 1, ch)
  | (og, ch), .Championship => (og, ch + 1)

/-- The placeholder `Placement(None, math.inf)` inserted for participants with
no placement in the target superevent. -/
def placeholder_placement : Placement :=
  { original_participant_code := Option.none, superevent_rank := Option.none }

/-- Truncation toward zero of `n / 4`, i.e. Python's `int(n / 4)` for an
exactly-representable quotient. -/
def truncDiv4 (n : ℤ) : ℤ := if 0 ≤ n then n / 4 else -((-n) / 4)

/-- `int(coef * older_placement.superevent_points)` with
`coef = max(0, 1 - 0.25 * w)` (`data.py` lines 104, 111).  The coefficient is
a multiple of 1/4 in `[0, 1]`, so the Python float products are exact and the
conversion to `int` equals truncating `max 0 (4 - w) * p` divided by 4;
`contrib_eq_floor` below restates this as the rational `⌊max 0 (1 - w/4)·p⌋`. -/
def contrib (w p : ℤ) : ℤ := truncDiv4 (max 0 (4 - w) * p)

/-- The body of the per-participant loop (`data.py` lines 106-111) for one row:
create a placeholder in the target cell when it is `NaN`; skip the points
accumulation when the older cell is `NaN`, else add the weighted contribution
of the older placement's own points. -/
def accumStep (w : ℤ) (tCell sCell : Option Placement) : Option Placement :=
  match tCell with
  | Option.none => Option.some (sCell.getD placeholder_placement)
  | Option.some tpl =>
      Option.some
        { sCell.getD placeholder_placement with
          four_year_points := (sCell.getD placeholder_placement).four_year_points +
            contrib w tpl.superevent_points }

/-- One counted older superevent folded into the target column, row by row
over the shared index. -/
def accumulateFrom (w : ℤ) (tCells sCells : Cells) : Cells :=
  (List.enumFrom 0 sCells).map (fun rc => accumStep w ((tCells[rc.1]?).getD Option.none) rc.2)

/-- The backward scan for one target superevent (`data.py` lines 94-117) over
the list of candidate columns `[i, i-1, …, i-min(i,4)]`: skip a candidate
whose category counter reached its limit; break when the year distance
exceeds `LIMIT_YEARS`; otherwise count the candidate, accumulate its
contributions, and break when both counters equal their limits. -/
def scanPeriods (s : SuperEvent) : List (SuperEvent × Cells) → ℕ × ℕ → Cells → Cells
  | [], _, sCells => sCells
  | tcol :: rest, counts, sCells =>
    if LIMITS tcol.1.cat ≤ getCount counts tcol.1.cat then
      scanPeriods s rest counts sCells
    else if LIMIT_YEARS < s.year - tcol.1.year then
      sCells
    else
      if getCount (incCount counts tcol.1.cat) SECategory.OlympicGames =
            LIMITS SECategory.OlympicGames ∧
          getCount (incCount counts tcol.1.cat) SECategory.Championship =
            LIMITS SECategory.Championship then
        accumulateFrom (whole_years_behind tcol.1 s) tcol.2 sCells
      else
        scanPeriods s rest (incCount counts tcol.1.cat)
          (accumulateFrom (whole_years_behind tcol.1 s) tcol.2 sCells)

/-- Process one target column: its candidate list is itself (`backward = 0`)
followed by the already-processed columns, newest first, capped at
`range(min(superevent_idx + 1, 5))` candidates. -/
def processOne (doneRev : Table) (col : SuperEvent × Cells) : SuperEvent × Cells :=
  (col.1, scanPeriods col.1 ((col :: doneRev).take 5) (0, 0) col.2)

/-- The outer loop over targets in chronological order, carrying the processed
columns in reverse (mutation in the Python DataFrame means later targets read
the updated earlier columns — their own points are never touched, see
`c9_aggregator_frame`). -/
def goAcc : Table → Table → Table
  | doneRev, [] => doneRev.reverse
  | doneRev, col :: rest => goAcc (processOne doneRev col :: doneRev) rest

def accumulateAll (cols : Table) : Table := goAcc [] cols

/-- The sort key comparison: Python tuple order on
`get_four_year_rank_key = (-four_year_points, -superevent_points)`. -/
def keyLe (a b : Placement) : Bool :=
  decide (a.get_four_year_rank_key.1 < b.get_four_year_rank_key.1 ∨
    (a.get_four_year_rank_key.1 = b.get_four_year_rank_key.1 ∧
      a.get_four_year_rank_key.2 ≤ b.get_four_year_rank_key.2))

/-- The relation used to sort (row, placement) entries; Python sorts the
distinct placement objects, which correspond one-to-one to rows here. -/
def entryLE (a b : ℕ × Placement) : Prop := keyLe a.2 b.2 = true

instance : DecidableRel entryLE := fun a b =>
  inferInstanceAs (Decidable (keyLe a.2 b.2 = true))

theorem keyLe_total (a b : Placement) : keyLe a b = true ∨ keyLe b a = true := by
  simp only [keyLe, decide_eq_true_eq]
  omega

theorem keyLe_trans (a b c : Placement) (h1 : keyLe a b = true) (h2 : keyLe b c = true) :
    keyLe a c = true := by
  simp only [keyLe, decide_eq_true_eq] at h1 h2 ⊢
  omega

instance : IsTotal (ℕ × Placement) entryLE := ⟨fun a b => keyLe_total a.2 b.2⟩

instance : IsTrans (ℕ × Placement) entryLE :=
  ⟨fun a b c h1 h2 => keyLe_trans a.2 b.2 c.2 h1 h2⟩

/-- Position of the first occurrence of `i` in a list (Python's
`list.index`). -/
def posOf (i : ℕ) : List ℕ → ℕ
  | [] => 0
  | j :: l => if j = i then 0 else posOf i l + 1

/-- The non-`NaN` cells of a column paired with their rows, sorted stably by
`get_four_year_rank_key` — `sorted(superevent_placements, key=...)` at
`data.py` lines 120-121.  `List.insertionSort` inserts an element before the
first entry it does not strictly follow, so equal keys keep their original
order exactly as Python's stable `sorted` does. -/
def sortedRowEntries (cells : Cells) : List (ℕ × Placement) :=
  List.insertionSort entryLE
    ((List.enumFrom 0 cells).filterMap (fun qc => qc.2.map (fun q => (qc.1, q))))

/-- The final ranking pass for one column (`data.py` lines 119-123): the
placement at sorted position `i` receives `four_year_rank = i + 1`; a cell's
position is recovered through its (unique) row index. -/
def rankColumn (cells : Cells) : Cells :=
  (List.enumFrom 0 cells).map (fun rc => rc.2.map (fun pl =>
    { pl with four_year_rank :=
        Option.some (1 + posOf rc.1 ((sortedRowEntries cells).map Prod.fst)) }))

/-- `process_four_years` (`data.py` lines 91-125): the accumulation loop over
all targets followed by the ranking pass over every column. -/
def process_four_years (cols : Table) : Table :=
  (accumulateAll cols).map (fun col => (col.1, rankColumn col.2))

/-- Input placement of the worked scenario (`test_process_four_years`):
participant `AAA` at rank 1 with explicit points. -/
def wplace (pts : ℤ) : Placement :=
  { original_participant_code := Option.some "AAA", superevent_rank := Option.some 1,
    superevent_points := pts }

/-- Output placement of the worked scenario: rolling rank 1 and the
accumulated rolling points. -/
def wout (pts fy : ℤ) : Placement :=
  { original_participant_code := Option.some "AAA", superevent_rank := Option.some 1,
    superevent_points := pts, four_year_rank := Option.some 1, four_year_points := fy }

/-- The twelve periods of the repository's `test_process_four_years` (equally
the spec's §8 worked scenario). -/
def worked_cols : Table :=
  [({ year := 9, cat := .Championship }, [Option.some (wplace 900)]),
   ({ year := 12, cat := .Championship }, [Option.some (wplace 1200)]),
   ({ year := 13, cat := .Championship }, [Option.some (wplace 1300)]),
   ({ year := 14, cat := .OlympicGames }, [Option.some (wplace 1400)]),
   ({ year := 15, cat := .Championship }, [Option.some (wplace 1500)]),
   ({ year := 16, cat := .OlympicGames }, [Option.some (wplace 1600)]),
   ({ year := 16, cat := .Championship }, [Option.some (wplace 1604)]),
   ({ year := 17, cat := .Championship }, [Option.some (wplace 1700)]),
   ({ year := 18, cat := .Championship }, [Option.some (wplace 1800)]),
   ({ year := 19, cat := .Championship }, [Option.some (wplace 1900)]),
   ({ year := 20, cat := .OlympicGames }, [Option.some (wplace 2000)]),
   ({ year := 20, cat := .Championship }, [Option.some (wplace 2004)])]

/-- The embedding reproduces the repository's `test_process_four_years`
expectation (also the worked scenario of the specification): rolling point
totals `[900, 1425, 2200, 3600, 3500, 4050, 4654, 4853, 5052, 4901, 6501,
6754]` in column order. -/
theorem process_four_years_worked_scenario :
    process_four_years worked_cols =
      [({ year := 9, cat := .Championship }, [Option.some (wout 900 900)]),
       ({ year := 12, cat := .Championship }, [Option.some (wout 1200 1425)]),
       ({ year := 13, cat := .Championship }, [Option.some (wout 1300 2200)]),
       ({ year := 14, cat := .OlympicGames }, [Option.some (wout 1400 3600)]),
       ({ year := 15, cat := .Championship }, [Option.some (wout 1500 3500)]),
       ({ year := 16, cat := .OlympicGames }, [Option.some (wout 1600 4050)]),
       ({ year := 16, cat := .Championship }, [Option.some (wout 1604 4654)]),
       ({ year := 17, cat := .Championship }, [Option.some (wout 1700 4853)]),
       ({ year := 18, cat := .Championship }, [Option.some (wout 1800 5052)]),
       ({ year := 19, cat := .Championship }, [Option.some (wout 1900 4901)]),
       ({ year := 20, cat := .OlympicGames }, [Option.some (wout 2000 6501)]),
       ({ year := 20, cat := .Championship }, [Option.some (wout 2004 6754)])] := by
  decide

/-- Two periods ten years apart: participant `A` (row 0) appears only in the
first, participant `B` (row 1) only in the second. -/
def c2_cols : Table :=
  [({ year := 0, cat := .Championship },
    [Option.some { original_participant_code := Option.some "A",
                   superevent_rank := Option.some 1, superevent_points := 20 },
     Option.none]),
   ({ year := 10, cat := .Championship },
    [Option.none,
     Option.some { original_participant_code := Option.some "B",
                   superevent_rank := Option.some 1, superevent_points := 20 }])]

/-- Claim C2, counterexample: participant `B` has no placement in the year-0
period nor in any period of its lookback window (`B` appears only in the
unrelated year-10 period), yet after the Aggregator runs, `B`'s year-0 cell is
a placeholder carrying the finite rolling rank 2 instead of the unranked
sentinel: the per-participant loop runs over the whole shared row index and
creates a ranked placeholder for every participant in every column. -/
theorem c2_unranked_counterexample :
    process_four_years c2_cols =
      [({ year := 0, cat := .Championship },
        [Option.some { original_participant_code := Option.some "A",
                       superevent_rank := Option.some 1, superevent_points := 20,
                       four_year_rank := Option.some 1, four_year_points := 20 },
         Option.some { original_participant_code := Option.none,
                       superevent_rank := Option.none, superevent_points := 0,
                       four_year_rank := Option.some 2, four_year_points := 0 }]),
       ({ year := 10, cat := .Championship },
        [Option.some { original_participant_code := Option.none,
                       superevent_rank := Option.none, superevent_points := 0,
                       four_year_rank := Option.some 2, four_year_points := 0 },
         Option.some { original_participant_code := Option.some "B",
                       superevent_rank := Option.some 1, superevent_points := 20,
                       four_year_rank := Option.some 1, four_year_points := 20 }])] ∧
      (Option.some (2 : ℕ) ≠ Option.none) := by
  refine ⟨by decide, ?_⟩
  simp

/-! ## Claim C4: the decay-weighted contribution -/

/-- The truncated integer contribution of the code equals the rational
`⌊max 0 (1 - w/4) * p⌋` whenever the contributing points are non-negative
(Python's `int` truncates toward zero, which agrees with the floor there). -/
theorem contrib_eq_floor (w p : ℤ) (hp : 0 ≤ p) :
    contrib w p = ⌊(max 0 (1 - (w : ℚ) / 4)) * (p : ℚ)⌋ := by
  rcases le_or_lt 4 w with h4 | h4
  · have hk : max 0 (4 - w) = 0 := by omega
    have hq : max 0 (1 - (w : ℚ) / 4) = 0 := by
      apply max_eq_left
      have hw : (4 : ℚ) ≤ (w : ℚ) := by exact_mod_cast h4
      linarith
    rw [contrib, hk, hq]
    norm_num [truncDiv4]
  · have hk : max 0 (4 - w) = 4 - w := by omega
    have hn : 0 ≤ (4 - w) * p := mul_nonneg (by omega) hp
    have hq : max 0 (1 - (w : ℚ) / 4) = 1 - (w : ℚ) / 4 := by
      apply max_eq_right
      have hw : (w : ℚ) < 4 := by exact_mod_cast h4
      linarith
    rw [contrib, hk, truncDiv4, if_pos hn, hq]
    have hcast : (1 - (w : ℚ) / 4) * (p : ℚ) = (((4 - w) * p : ℤ) : ℚ) / ((4 : ℕ) : ℚ) := by
      push_cast
      ring
    rw [hcast, Rat.floor_intCast_div_natCast]
    norm_num

/-- Claim C4: for every counted period `t` and target `s`, the amount the
accumulation step adds to a participant's rolling points equals
`⌊coefficient × own-period points⌋` with
`coefficient = max(0, 1 − 0.25·wholeYearsBehind)` and
`wholeYearsBehind = (s.year − t.year)`, minus 1 exactly when `t`'s
within-year order is later than `s`'s — provided the contributing points are
non-negative (they are formula values `≥ 20` or non-negative explicit data in
every run). -/
theorem c4_contribution (t s : SuperEvent) (tpl : Placement) (cell : Option Placement)
    (hp : 0 ≤ tpl.superevent_points) :
    accumStep (whole_years_behind t s) (Option.some tpl) cell =
      Option.some
        { cell.getD placeholder_placement with
          four_year_points := (cell.getD placeholder_placement).four_year_points +
            ⌊(max 0 (1 - ((((s.year - t.year) -
                (if s.order_in_year < t.order_in_year then 1 else 0)) : ℤ) : ℚ) / 4)) *
              (tpl.superevent_points : ℚ)⌋ } := by
  have hstep : accumStep (whole_years_behind t s) (Option.some tpl) cell =
      Option.some
        { cell.getD placeholder_placement with
          four_year_points := (cell.getD placeholder_placement).four_year_points +
            contrib (whole_years_behind t s) tpl.superevent_points } := rfl
  have hw : whole_years_behind t s =
      (s.year - t.year) - (if s.order_in_year < t.order_in_year then 1 else 0) := by
    rw [whole_years_behind]
    split_ifs <;> omega
  rw [hstep, contrib_eq_floor _ _ hp, hw]

/-- Witness for C4: a Championship of year 13 contributing to the Olympic
period of year 16 sits 2 whole years behind, so 1300 points contribute
`⌊0.5 × 1300⌋ = 650`. -/
theorem c4_contribution_witness :
    accumStep (whole_years_behind { year := 13, cat := SECategory.Championship }
        { year := 16, cat := SECategory.OlympicGames })
      (Option.some (wplace 1300)) Option.none =
      Option.some { placeholder_placement with four_year_points := 650 } := by
  have h := c4_contribution { year := 13, cat := SECategory.Championship }
    { year := 16, cat := SECategory.OlympicGames } (wplace 1300) Option.none (by decide)
  rw [h, ← contrib_eq_floor _ _ (by decide : (0 : ℤ) ≤ (wplace 1300).superevent_points)]
  decide

/-! ## Claim C3: the shape of the backward scan -/

/-- Modelled from the claim's wording: the whole-year distance between an
examined period and the target is the difference of their calendar years. -/
def wholeYearDistance (t s : SuperEvent) : ℤ := s.year - t.year

/-- The claim's per-category caps: CategoryA (Olympic family) 1, CategoryB
(annual championships) 4. -/
def categoryCap : SECategory → ℕ
  | .OlympicGames => 1
  | .Championship => 4

/-- The backward scan as described by the claim, rule for rule: skip an
examined period whose category counter reached its cap; stop the whole scan
as soon as the whole-year distance exceeds 4; otherwise count the period and
stop once both category counters are saturated. -/
def specScanPeriods (s : SuperEvent) : List (SuperEvent × Cells) → ℕ × ℕ → Cells → Cells
  | [], _, acc => acc
  | tcol :: rest, counters, acc =>
    if categoryCap tcol.1.cat ≤ getCount counters tcol.1.cat then
      specScanPeriods s rest counters acc
    else if 4 < wholeYearDistance tcol.1 s then
      acc
    else
      if getCount (incCount counters tcol.1.cat) SECategory.OlympicGames =
            categoryCap SECategory.OlympicGames ∧
          getCount (incCount counters tcol.1.cat) SECategory.Championship =
            categoryCap SECategory.Championship then
        accumulateFrom (whole_years_behind tcol.1 s) tcol.2 acc
      else
        specScanPeriods s rest (incCount counters tcol.1.cat)
          (accumulateFrom (whole_years_behind tcol.1 s) tcol.2 acc)

theorem scanPeriods_eq_spec (s : SuperEvent) :
    ∀ (cand : List (SuperEvent × Cells)) (counts : ℕ × ℕ) (cells : Cells),
      scanPeriods s cand counts cells = specScanPeriods s cand counts cells := by
  intro cand
  induction cand with
  | nil => intro counts cells; rfl
  | cons tcol rest ih =>
    intro counts cells
    have hcap : categoryCap = LIMITS := by
      funext c
      cases c <;> rfl
    rw [scanPeriods, specScanPeriods, hcap]
    rw [show (4 : ℤ) = LIMIT_YEARS from rfl, show wholeYearDistance tcol.1 s =
      s.year - tcol.1.year from rfl]
    split_ifs
    · exact ih _ _
    · rfl
    · rfl
    · exact ih _ _

theorem take_eq_range_getD {α : Type} (d : α) :
    ∀ (l : List α) (n : ℕ),
      l.take n = (List.range (min l.length n)).map (fun j => l.getD j d) := by
  intro l
  induction l with
  | nil => intro n; simp
  | cons a l ih =>
    intro n
    cases n with
    | zero => simp
    | succ n =>
      rw [List.take_succ_cons]
      have hmin : min (a :: l).length (n + 1) = (min l.length n) + 1 := by
        simp only [List.length_cons]
        omega
      rw [hmin, List.range_succ_eq_map, List.map_cons, List.map_map]
      congr 1
      rw [ih n]
      apply List.map_congr_left
      intro j _
      rfl

theorem getD_cons_append_reverse {α : Type} (d : α) (doneRev : List α) (c : α)
    (rest : List α) (b : ℕ) (hb : b ≤ doneRev.length) :
    (c :: doneRev).getD b d = (doneRev.reverse ++ c :: rest).getD (doneRev.length - b) d := by
  cases b with
  | zero =>
    rw [show (c :: doneRev).getD 0 d = c from rfl]
    rw [List.getD_eq_getElem?_getD, Nat.sub_zero,
      List.getElem?_append_right (by rw [List.length_reverse])]
    rw [List.length_reverse, Nat.sub_self, List.getElem?_cons_zero]
    rfl
  | succ k =>
    have hk : k < doneRev.length := by omega
    rw [show (c :: doneRev).getD (k + 1) d = doneRev.getD k d from rfl]
    have hidx : doneRev.length - (k + 1) < doneRev.reverse.length := by
      rw [List.length_reverse]; omega
    rw [List.getD_eq_getElem?_getD, List.getD_eq_getElem?_getD,
      List.getElem?_append_left hidx,
      List.getElem?_reverse (by rw [List.length_reverse] at hidx; omega)]
    congr 2
    omega

/-- Claim C3: (first part) the scan the code performs coincides, rule for
rule and in rule order, with the claim's description — skip at a saturated
category cap, stop the scan when the whole-year distance exceeds 4, count
otherwise, stop when both caps are saturated; (second part) the candidate
list handed to the scan for the target at chronological index
`i = doneRev.length` of the evolving table consists exactly of the columns at
indices `i - b` for `b = 0 .. min i 4`. -/
theorem c3_lookback_scan :
    (∀ (s : SuperEvent) (cand : List (SuperEvent × Cells)) (counts : ℕ × ℕ) (cells : Cells),
        scanPeriods s cand counts cells = specScanPeriods s cand counts cells) ∧
      (∀ (doneRev rest : Table) (col dflt : SuperEvent × Cells),
        processOne doneRev col =
          (col.1, scanPeriods col.1
            ((List.range (min doneRev.length 4 + 1)).map
              (fun b => (doneRev.reverse ++ col :: rest).getD (doneRev.length - b) dflt))
            (0, 0) col.2)) := by
  constructor
  · exact scanPeriods_eq_spec
  · intro doneRev rest col dflt
    rw [processOne]
    rw [take_eq_range_getD dflt (col :: doneRev) 5]
    have hmin : min (col :: doneRev).length 5 = min doneRev.length 4 + 1 := by
      simp only [List.length_cons]
      omega
    rw [hmin]
    have hcand : (List.range (min doneRev.length 4 + 1)).map
          (fun j => (col :: doneRev).getD j dflt) =
        (List.range (min doneRev.length 4 + 1)).map
          (fun b => (doneRev.reverse ++ col :: rest).getD (doneRev.length - b) dflt) := by
      apply List.map_congr_left
      intro b hb
      rw [List.mem_range] at hb
      exact getD_cons_append_reverse dflt doneRev col rest b (by omega)
    rw [hcand]

/-! ## Claim C9: the Aggregator never touches own-period fields -/

/-- `b` agrees with `a` on the fields the Merger wrote: source code, own
rank, own points. -/
def OwnEq (a b : Placement) : Prop :=
  b.original_participant_code = a.original_participant_code ∧
    b.superevent_rank = a.superevent_rank ∧ b.superevent_points = a.superevent_points

/-- A cell transition that can only fill a `NaN` or rewrite rolling fields. -/
def CellPres (x y : Option Placement) : Prop :=
  ∀ pl, x = Option.some pl → ∃ pl2, y = Option.some pl2 ∧ OwnEq pl pl2

theorem CellPres_refl (x : Option Placement) : CellPres x x :=
  fun pl h => ⟨pl, h, rfl, rfl, rfl⟩

theorem CellPres_trans (x y z : Option Placement) (h1 : CellPres x y)
    (h2 : CellPres y z) : CellPres x z := by
  intro pl hx
  obtain ⟨pl2, hy, e1⟩ := h1 pl hx
  obtain ⟨pl3, hz, e2⟩ := h2 pl2 hy
  exact ⟨pl3, hz, e2.1.trans e1.1, e2.2.1.trans e1.2.1, e2.2.2.trans e1.2.2⟩

def ColPres (a b : SuperEvent × Cells) : Prop :=
  b.1 = a.1 ∧ List.Forall₂ CellPres a.2 b.2

theorem forall2_trans {α : Type} {R : α → α → Prop}
    (htrans : ∀ a b c, R a b → R b c → R a c) :
    ∀ {l1 l2 l3 : List α}, List.Forall₂ R l1 l2 → List.Forall₂ R l2 l3 →
      List.Forall₂ R l1 l3 := by
  intro l1 l2 l3 h12
  induction h12 generalizing l3 with
  | nil =>
    intro h23
    cases h23
    exact List.Forall₂.nil
  | cons hab h ih =>
    intro h23
    cases h23 with
    | cons hbc h2 => exact List.Forall₂.cons (htrans _ _ _ hab hbc) (ih h2)

theorem forall2_cellpres_refl (l : Cells) : List.Forall₂ CellPres l l :=
  List.forall₂_same.mpr (fun x _ => CellPres_refl x)

theorem ColPres_refl (a : SuperEvent × Cells) : ColPres a a :=
  ⟨rfl, forall2_cellpres_refl a.2⟩

theorem ColPres_trans (a b c : SuperEvent × Cells) (h1 : ColPres a b)
    (h2 : ColPres b c) : ColPres a c :=
  ⟨h2.1.trans h1.1, forall2_trans CellPres_trans h1.2 h2.2⟩

theorem accumStep_pres (w : ℤ) (tCell x : Option Placement) :
    CellPres x (accumStep w tCell x) := by
  intro pl hx
  rw [hx]
  cases tCell with
  | none => exact ⟨pl, rfl, rfl, rfl, rfl⟩
  | some tpl => exact ⟨_, rfl, rfl, rfl, rfl⟩

theorem enum_map_pres (g : ℕ → Option Placement → Option Placement)
    (hg : ∀ i x, CellPres x (g i x)) :
    ∀ (l : Cells) (n : ℕ),
      List.Forall₂ CellPres l ((List.enumFrom n l).map (fun rc => g rc.1 rc.2)) := by
  intro l
  induction l with
  | nil => intro n; exact List.Forall₂.nil
  | cons x l ih => intro n; exact List.Forall₂.cons (hg n x) (ih (n + 1))

theorem accumulateFrom_pres (w : ℤ) (tCells sCells : Cells) :
    List.Forall₂ CellPres sCells (accumulateFrom w tCells sCells) :=
  enum_map_pres (fun i x => accumStep w ((tCells[i]?).getD Option.none) x)
    (fun i x => accumStep_pres w ((tCells[i]?).getD Option.none) x) sCells 0

theorem scanPeriods_pres (s : SuperEvent) :
    ∀ (cand : List (SuperEvent × Cells)) (counts : ℕ × ℕ) (cells : Cells),
      List.Forall₂ CellPres cells (scanPeriods s cand counts cells) := by
  intro cand
  induction cand with
  | nil => intro counts cells; exact forall2_cellpres_refl cells
  | cons tcol rest ih =>
    intro counts cells
    rw [scanPeriods]
    split_ifs
    · exact ih _ _
    · exact forall2_cellpres_refl cells
    · exact accumulateFrom_pres _ _ _
    · exact forall2_trans CellPres_trans (accumulateFrom_pres _ _ _) (ih _ _)

theorem processOne_pres (doneRev : Table) (col : SuperEvent × Cells) :
    ColPres col (processOne doneRev col) :=
  ⟨rfl, scanPeriods_pres col.1 _ _ _⟩

theorem forall2_colpres_refl (l : Table) : List.Forall₂ ColPres l l :=
  List.forall₂_same.mpr (fun x _ => ColPres_refl x)

theorem goAcc_pres : ∀ (rest doneRev : Table),
    List.Forall₂ ColPres (doneRev.reverse ++ rest) (goAcc doneRev rest) := by
  intro rest
  induction rest with
  | nil =>
    intro doneRev
    rw [goAcc, List.append_nil]
    exact forall2_colpres_refl _
  | cons col rest ih =>
    intro doneRev
    rw [goAcc]
    have h2 := ih (processOne doneRev col :: doneRev)
    rw [List.reverse_cons, List.append_assoc, List.singleton_append] at h2
    apply forall2_trans ColPres_trans _ h2
    exact List.rel_append (forall2_colpres_refl doneRev.reverse)
      (List.Forall₂.cons (processOne_pres doneRev col) (forall2_colpres_refl rest))

theorem forall2_map_self {α : Type} {R : α → α → Prop} (f : α → α)
    (hf : ∀ a, R a (f a)) : ∀ l : List α, List.Forall₂ R l (l.map f) := by
  intro l
  induction l with
  | nil => exact List.Forall₂.nil
  | cons a l ih => exact List.Forall₂.cons (hf a) ih

theorem rankColumn_pres (cells : Cells) : List.Forall₂ CellPres cells (rankColumn cells) := by
  have h := enum_map_pres (fun i x => x.map (fun pl =>
      { pl with four_year_rank :=
          Option.some (1 + posOf i ((sortedRowEntries cells).map Prod.fst)) }))
    (fun i x pl hx => by rw [hx]; exact ⟨_, rfl, rfl, rfl, rfl⟩) cells 0
  exact h

theorem process_four_years_pres (cols : Table) :
    List.Forall₂ ColPres cols (process_four_years cols) := by
  have h1 : List.Forall₂ ColPres cols (accumulateAll cols) := by
    have := goAcc_pres cols []
    rw [List.reverse_nil, List.nil_append] at this
    exact this
  have h2 : List.Forall₂ ColPres (accumulateAll cols) (process_four_years cols) := by
    apply forall2_map_self
    intro col
    exact ⟨rfl, rankColumn_pres col.2⟩
  exact forall2_trans ColPres_trans h1 h2

theorem forall2_getElem? {α β : Type} {R : α → β → Prop} :
    ∀ {l1 : List α} {l2 : List β}, List.Forall₂ R l1 l2 →
      ∀ (i : ℕ) (a : α), l1[i]? = some a → ∃ b, l2[i]? = some b ∧ R a b := by
  intro l1 l2 h
  induction h with
  | nil =>
    intro i a ha
    rw [List.getElem?_nil] at ha
    cases ha
  | cons hr h ih =>
    intro i a ha
    cases i with
    | zero =>
      rw [List.getElem?_cons_zero] at ha
      injection ha with ha
      exact ⟨_, List.getElem?_cons_zero, ha ▸ hr⟩
    | succ i =>
      rw [List.getElem?_cons_succ] at ha
      obtain ⟨b, hb, hrb⟩ := ih i a ha
      exact ⟨b, by rw [List.getElem?_cons_succ]; exact hb, hrb⟩

/-- Claim C9: the Aggregator never modifies own-period fields.  Every
placement present in any period before `process_four_years` keeps its
`original_participant_code`, `superevent_rank` and `superevent_points`
afterwards, and the column's superevent is unchanged — only the rolling
fields are rewritten and placeholders inserted into `NaN` cells. -/
theorem c9_aggregator_frame (cols : Table) (j r : ℕ) (col : SuperEvent × Cells)
    (pl : Placement) (h1 : cols[j]? = some col)
    (h2 : col.2[r]? = some (Option.some pl)) :
    ∃ (col2 : SuperEvent × Cells) (pl2 : Placement),
      (process_four_years cols)[j]? = some col2 ∧ col2.1 = col.1 ∧
        col2.2[r]? = some (Option.some pl2) ∧
        pl2.original_participant_code = pl.original_participant_code ∧
        pl2.superevent_rank = pl.superevent_rank ∧
        pl2.superevent_points = pl.superevent_points := by
  obtain ⟨col2, hcol2, hcp⟩ := forall2_getElem? (process_four_years_pres cols) j col h1
  obtain ⟨cell2, hcell2, hcellp⟩ := forall2_getElem? hcp.2 r (Option.some pl) h2
  obtain ⟨pl2, hpl2, hown⟩ := hcellp pl rfl
  exact ⟨col2, pl2, hcol2, hcp.1, by rw [hcell2, hpl2], hown.1, hown.2.1, hown.2.2⟩

/-- Witness for C9 on a two-period table: the year-5 placement keeps its own
rank 1 and points 40 after the pass. -/
theorem c9_aggregator_frame_witness :
    ∃ (col2 : SuperEvent × Cells) (pl2 : Placement),
      (process_four_years
          [({ year := 5, cat := SECategory.Championship }, [Option.some (wplace 40)]),
           ({ year := 6, cat := SECategory.Championship }, [Option.some (wplace 60)])])[0]? =
          some col2 ∧
        col2.1 = ({ year := 5, cat := SECategory.Championship } : SuperEvent) ∧
        col2.2[0]? = some (Option.some pl2) ∧
        pl2.original_participant_code = Option.some "AAA" ∧
        pl2.superevent_rank = Option.some 1 ∧
        pl2.superevent_points = 40 :=
  c9_aggregator_frame
    [({ year := 5, cat := SECategory.Championship }, [Option.some (wplace 40)]),
     ({ year := 6, cat := SECategory.Championship }, [Option.some (wplace 60)])]
    0 0 ({ year := 5, cat := SECategory.Championship }, [Option.some (wplace 40)])
    (wplace 40) rfl rfl

/-! ## Claim C10: `original_participant_code` vs `event_participant_code`

Python attribute lookup on a `Placement` dataclass instance is modelled as a
partial map from attribute names to values; exactly the five dataclass field
names of `objects.py` lines 67-75 resolve, every other name raises
`AttributeError`. -/

/-- A Python attribute value of a `Placement` field: `None`, a string, a
number, or the float infinity sentinel. -/
inductive PyVal : Type
  | vNone : PyVal
  | vStr : String → PyVal
  | vInt : ℤ → PyVal
  | vNat : ℕ → PyVal
  | vInf : PyVal
deriving DecidableEq, Repr

def pyOfOptStr : Option String → PyVal
  | Option.none => PyVal.vNone
  | Option.some s => PyVal.vStr s

/-- Python truthiness of an attribute value. -/
def pyTruthy : PyVal → Bool
  | PyVal.vNone => false
  | PyVal.vStr s => decide (s ≠ "")
  | PyVal.vInt n => decide (n ≠ 0)
  | PyVal.vNat n => decide (n ≠ 0)
  | PyVal.vInf => true

/-- `getattr` on a `Placement` instance: the dataclass defines exactly
`original_participant_code`, `superevent_rank`, `superevent_points`,
`four_year_rank` and `four_year_points`. -/
def Placement.getattr (pl : Placement) (name : String) : Except String PyVal :=
  if name = "original_participant_code" then Except.ok (pyOfOptStr pl.original_participant_code)
  else if name = "superevent_rank" then
    Except.ok (match pl.superevent_rank with
      | Option.none => PyVal.vInf
      | Option.some z => PyVal.vInt z)
  else if name = "superevent_points" then Except.ok (PyVal.vInt pl.superevent_points)
  else if name = "four_year_rank" then
    Except.ok (match pl.four_year_rank with
      | Option.none => PyVal.vInf
      | Option.some n => PyVal.vNat n)
  else if name = "four_year_points" then Except.ok (PyVal.vInt pl.four_year_points)
  else Except.error ("AttributeError: Placement object has no attribute " ++ name)

/-- `get_historical_team_name` (`cli.py` lines 10-19): reads
`placement.event_participant_code`, looks the participant up when the value
is truthy and falls back to the series participant's name. -/
def get_historical_team_name (dir : List PRec) (series_participant : PRec)
    (placement : Placement) : Except String String :=
  match placement.getattr "event_participant_code" with
  | Except.error e => Except.error e
  | Except.ok v =>
    if pyTruthy v then
      match v with
      | PyVal.vStr s =>
        match find_participant dir s with
        | Option.some event_participant => Except.ok event_participant.name_en
        | Option.none => Except.ok series_participant.name_en
      | _ => Except.ok series_participant.name_en
    else Except.ok series_participant.name_en

/-- The flag-selection step of `RankingDiagramGenerator._process_single_flag`
(`ranking_diagram.py` lines 477-479): `event_participant` stays `None` unless
`placement.event_participant_code` is truthy. -/
def flag_event_participant (dir : List PRec) (placement : Placement) :
    Except String (Option PRec) :=
  match placement.getattr "event_participant_code" with
  | Except.error e => Except.error e
  | Except.ok v =>
    if pyTruthy v then
      match v with
      | PyVal.vStr s => Except.ok (find_participant dir s)
      | _ => Except.ok Option.none
    else Except.ok Option.none

/-- Claim C10: every `Placement` stores the source-event code only under
`original_participant_code`; no `Placement` defines
`event_participant_code`, so both the historical-name helper of the CLI and
the flag-selection step of the diagram generator raise `AttributeError` for
every placement instead of producing a name or flag. -/
theorem c10_attribute_mismatch :
    (∀ pl : Placement,
        pl.getattr "original_participant_code" =
          Except.ok (pyOfOptStr pl.original_participant_code)) ∧
      (∀ pl : Placement, pl.getattr "event_participant_code" =
        Except.error
          "AttributeError: Placement object has no attribute event_participant_code") ∧
      (∀ (dir : List PRec) (sp : PRec) (pl : Placement),
        get_historical_team_name dir sp pl =
          Except.error
            "AttributeError: Placement object has no attribute event_participant_code") ∧
      (∀ (dir : List PRec) (pl : Placement),
        flag_event_participant dir pl =
          Except.error
            "AttributeError: Placement object has no attribute event_participant_code") := by
  refine ⟨fun pl => rfl, fun pl => rfl, fun dir sp pl => rfl, fun dir pl => rfl⟩

/-! ## Claim C2: who gets a rolling rank -/

/-- No cell of the list is `NaN`. -/
def allSomeCells (cells : Cells) : Prop := ∀ c ∈ cells, c ≠ Option.none

theorem accumStep_ne_none (w : ℤ) (tCell x : Option Placement) :
    accumStep w tCell x ≠ Option.none := by
  cases tCell <;> simp [accumStep]

theorem accumulateFrom_allSome (w : ℤ) (tCells sCells : Cells) :
    allSomeCells (accumulateFrom w tCells sCells) := by
  intro c hc
  rw [accumulateFrom] at hc
  rcases List.mem_map.mp hc with ⟨rc, _, hmap⟩
  rw [← hmap]
  exact accumStep_ne_none _ _ _

theorem scanPeriods_allSome (s : SuperEvent) :
    ∀ (cand : List (SuperEvent × Cells)) (counts : ℕ × ℕ) (cells : Cells),
      allSomeCells cells → allSomeCells (scanPeriods s cand counts cells) := by
  intro cand
  induction cand with
  | nil => intro counts cells h; exact h
  | cons tcol rest ih =>
    intro counts cells h
    rw [scanPeriods]
    split_ifs
    · exact ih _ _ h
    · exact h
    · exact accumulateFrom_allSome _ _ _
    · exact ih _ _ (accumulateFrom_allSome _ _ _)

/-- Every processed column has placeholders everywhere: the target itself is
always counted at `backward = 0` (its counters start at zero and its distance
to itself is zero), and that accumulation pass visits every row of the shared
index. -/
theorem processOne_allSome (doneRev : Table) (col : SuperEvent × Cells) :
    allSomeCells (processOne doneRev col).2 := by
  show allSomeCells (scanPeriods col.1 ((col :: doneRev).take 5) (0, 0) col.2)
  rw [List.take_succ_cons, scanPeriods]
  have hcap : ∀ c : SECategory, ¬ (LIMITS c ≤ getCount (0, 0) c) := by
    intro c
    cases c <;> simp [LIMITS, getCount]
  rw [if_neg (hcap col.1.cat)]
  have hyear : ¬ (LIMIT_YEARS < col.1.year - col.1.year) := by
    rw [LIMIT_YEARS]
    omega
  rw [if_neg hyear]
  split_ifs
  · exact accumulateFrom_allSome _ _ _
  · exact scanPeriods_allSome _ _ _ _ (accumulateFrom_allSome _ _ _)

theorem goAcc_allSome : ∀ (rest doneRev : Table),
    (∀ col ∈ doneRev, allSomeCells col.2) →
      ∀ col ∈ goAcc doneRev rest, allSomeCells col.2 := by
  intro rest
  induction rest with
  | nil =>
    intro doneRev hd col hcol
    rw [goAcc] at hcol
    exact hd col (List.mem_reverse.mp hcol)
  | cons c rest ih =>
    intro doneRev hd col hcol
    rw [goAcc] at hcol
    apply ih _ _ col hcol
    intro col2 hcol2
    rcases List.mem_cons.mp hcol2 with h | h
    · rw [h]
      exact processOne_allSome doneRev c
    · exact hd col2 h

theorem accumulateAll_allSome (cols : Table) :
    ∀ col ∈ accumulateAll cols, allSomeCells col.2 := by
  intro col hcol
  exact goAcc_allSome cols [] (fun c hc => absurd hc (List.not_mem_nil c)) col hcol

theorem enum_snd_mem {α : Type} :
    ∀ (l : List α) (n : ℕ) (p : ℕ × α), p ∈ List.enumFrom n l → p.2 ∈ l := by
  intro l
  induction l with
  | nil => intro n p h; cases h
  | cons a l ih =>
    intro n p h
    rcases List.mem_cons.mp h with h1 | h1
    · rw [h1]
      exact List.mem_cons_self a l
    · exact List.mem_cons_of_mem a (ih (n + 1) p h1)

/-- The rows of the non-`NaN` entries of an all-`some` column are exactly the
row indices in order. -/
theorem rowEntries_fst :
    ∀ (l : Cells) (n : ℕ), allSomeCells l →
      ((List.enumFrom n l).filterMap (fun qc => qc.2.map (fun q => (qc.1, q)))).map Prod.fst =
        List.range' n l.length := by
  intro l
  induction l with
  | nil => intro n _; rfl
  | cons c l ih =>
    intro n h
    rcases hc : c with _ | pl
    · exact absurd hc (h c (List.mem_cons_self c l))
    · show ((n, pl) ::
          (List.enumFrom (n + 1) l).filterMap
            (fun qc => Option.map (fun q => (qc.1, q)) qc.2)).map Prod.fst =
        List.range' n (Option.some pl :: l).length
      rw [List.map_cons, ih (n + 1) (fun x hx => h x (List.mem_cons_of_mem c hx))]
      rfl

theorem posOf_lt_length (i : ℕ) : ∀ L : List ℕ, i ∈ L → posOf i L < L.length := by
  intro L
  induction L with
  | nil => intro h; cases h
  | cons j L ih =>
    intro h
    rw [posOf]
    split_ifs with hj
    · simp
    · have hi : i ∈ L := by
        rcases List.mem_cons.mp h with h1 | h1
        · exact absurd h1.symm hj
        · exact h1
      simp only [List.length_cons]
      exact Nat.succ_lt_succ (ih hi)

theorem posOf_getElem? (i : ℕ) : ∀ L : List ℕ, i ∈ L → L[posOf i L]? = some i := by
  intro L
  induction L with
  | nil => intro h; cases h
  | cons j L ih =>
    intro h
    rw [posOf]
    split_ifs with hj
    · rw [List.getElem?_cons_zero, hj]
    · have hi : i ∈ L := by
        rcases List.mem_cons.mp h with h1 | h1
        · exact absurd h1.symm hj
        · exact h1
      rw [List.getElem?_cons_succ]
      exact ih hi

theorem posOf_map_self : ∀ L : List ℕ, L.Nodup → L.map (fun i => posOf i L) = List.range L.length := by
  intro L
  induction L with
  | nil => intro _; rfl
  | cons a L ih =>
    intro hnd
    rcases List.nodup_cons.mp hnd with ⟨ha, hndL⟩
    rw [List.map_cons]
    have ha0 : posOf a (a :: L) = 0 := by rw [posOf]; simp
    have hrest : L.map (fun i => posOf i (a :: L)) =
        (L.map (fun i => posOf i L)).map (fun k => k + 1) := by
      rw [List.map_map]
      apply List.map_congr_left
      intro b hb
      have hab : a ≠ b := fun he => ha (he ▸ hb)
      show posOf b (a :: L) = posOf b L + 1
      rw [posOf, if_neg hab]
    rw [ha0, hrest, ih hndL, List.length_cons, List.range_succ_eq_map]

theorem rank_map_ranks (S : List ℕ) :
    ∀ (l : Cells) (n : ℕ), allSomeCells l →
      (((List.enumFrom n l).map (fun rc => rc.2.map (fun pl =>
          { pl with four_year_rank := Option.some (1 + posOf rc.1 S) }))).filterMap
        (fun c => c.map Placement.four_year_rank)) =
        (List.range' n l.length).map (fun i => Option.some (1 + posOf i S)) := by
  intro l
  induction l with
  | nil => intro n _; rfl
  | cons c l ih =>
    intro n h
    rcases hc : c with _ | pl
    · exact absurd hc (h c (List.mem_cons_self c l))
    · show Option.some (1 + posOf n S) ::
          (((List.enumFrom (n + 1) l).map (fun rc => rc.2.map (fun pl2 =>
            { pl2 with four_year_rank := Option.some (1 + posOf rc.1 S) }))).filterMap
            (fun c2 => c2.map Placement.four_year_rank)) =
        Option.some (1 + posOf n S) ::
          (List.range' (n + 1) l.length).map (fun i => Option.some (1 + posOf i S))
      rw [ih (n + 1) (fun x hx => h x (List.mem_cons_of_mem c hx))]

theorem sortedRowEntries_perm (cells : Cells) :
    List.Perm (sortedRowEntries cells)
      ((List.enumFrom 0 cells).filterMap (fun qc => qc.2.map (fun q => (qc.1, q)))) :=
  List.perm_insertionSort entryLE _

theorem sortedRowEntries_fst_perm (cells : Cells) (h : allSomeCells cells) :
    List.Perm ((sortedRowEntries cells).map Prod.fst) (List.range' 0 cells.length) := by
  have hp := (sortedRowEntries_perm cells).map Prod.fst
  rw [rowEntries_fst cells 0 h] at hp
  exact hp

theorem sortedRowEntries_fst_nodup (cells : Cells) (h : allSomeCells cells) :
    ((sortedRowEntries cells).map Prod.fst).Nodup :=
  (sortedRowEntries_fst_perm cells h).symm.nodup
    (List.nodup_range' 0 cells.length 1 (by norm_num))

theorem sortedRowEntries_fst_length (cells : Cells) (h : allSomeCells cells) :
    ((sortedRowEntries cells).map Prod.fst).length = cells.length := by
  have hp := (sortedRowEntries_fst_perm cells h).length_eq
  simpa using hp

theorem rankColumn_length (cells : Cells) : (rankColumn cells).length = cells.length := by
  rw [rankColumn, List.length_map, List.enumFrom_length]

theorem rankColumn_allSome (cells : Cells) (h : allSomeCells cells) :
    allSomeCells (rankColumn cells) := by
  intro c hc
  rw [rankColumn] at hc
  rcases List.mem_map.mp hc with ⟨rc, hrc, hmap⟩
  rcases hc2 : rc.2 with _ | pl
  · exact absurd hc2 (h rc.2 (enum_snd_mem cells 0 rc hrc))
  · rw [← hmap, hc2]
    simp

theorem rankColumn_perm (cells : Cells) (h : allSomeCells cells) :
    List.Perm ((rankColumn cells).filterMap (fun c => c.map Placement.four_year_rank))
      ((List.range (rankColumn cells).length).map (fun i => Option.some (i + 1))) := by
  have hnd := sortedRowEntries_fst_nodup cells h
  have hlen := sortedRowEntries_fst_length cells h
  rw [rankColumn_length]
  have hR : (rankColumn cells).filterMap (fun c => c.map Placement.four_year_rank) =
      (List.range' 0 cells.length).map
        (fun i => Option.some (1 + posOf i ((sortedRowEntries cells).map Prod.fst))) :=
    rank_map_ranks _ cells 0 h
  rw [hR]
  have hp1 : List.Perm
      ((List.range' 0 cells.length).map
        (fun i => Option.some (1 + posOf i ((sortedRowEntries cells).map Prod.fst))))
      (((sortedRowEntries cells).map Prod.fst).map
        (fun i => Option.some (1 + posOf i ((sortedRowEntries cells).map Prod.fst)))) :=
    (sortedRowEntries_fst_perm cells h).symm.map _
  apply hp1.trans
  have hmapped : ((sortedRowEntries cells).map Prod.fst).map
      (fun i => Option.some (1 + posOf i ((sortedRowEntries cells).map Prod.fst))) =
      (List.range cells.length).map (fun k => Option.some (k + 1)) := by
    rw [show (fun i => Option.some (1 + posOf i ((sortedRowEntries cells).map Prod.fst))) =
        ((fun k => Option.some (1 + k)) ∘
          (fun i => posOf i ((sortedRowEntries cells).map Prod.fst))) from rfl]
    rw [← List.map_map, posOf_map_self _ hnd, hlen]
    apply List.map_congr_left
    intro x _
    rw [Nat.add_comm]
  rw [hmapped]

theorem mem_rankColumn (cells : Cells) (pl : Placement)
    (h : Option.some pl ∈ rankColumn cells) :
    ∃ i q, (i, Option.some q) ∈ List.enumFrom 0 cells ∧
      pl = { q with
             four_year_rank := Option.some (1 + posOf i ((sortedRowEntries cells).map Prod.fst)) } := by
  rw [rankColumn] at h
  rcases List.mem_map.mp h with ⟨rc, hrc, hmap⟩
  rcases hq : rc.2 with _ | q
  · rw [hq] at hmap
    simp at hmap
  · rw [hq, Option.map_some'] at hmap
    injection hmap with hmap
    refine ⟨rc.1, q, ?_, hmap.symm⟩
    rw [← hq]
    exact hrc

theorem nodup_fst_eq {α β : Type} :
    ∀ (L : List (α × β)), (L.map Prod.fst).Nodup →
      ∀ p q : α × β, p ∈ L → q ∈ L → p.1 = q.1 → p = q := by
  intro L
  induction L with
  | nil => intro _ p q hp _ _; cases hp
  | cons x L ih =>
    intro hnd p q hp hq hfst
    rw [List.map_cons, List.nodup_cons] at hnd
    rcases List.mem_cons.mp hp with hp1 | hp1 <;> rcases List.mem_cons.mp hq with hq1 | hq1
    · rw [hp1, hq1]
    · exfalso
      apply hnd.1
      apply List.mem_map.mpr
      exact ⟨q, hq1, by rw [← hfst, hp1]⟩
    · exfalso
      apply hnd.1
      apply List.mem_map.mpr
      exact ⟨p, hp1, by rw [hfst, hq1]⟩
    · exact ih hnd.2 p q hp1 hq1 hfst

theorem sorted_entry_at_pos (cells : Cells)
    (hnd : ((sortedRowEntries cells).map Prod.fst).Nodup) (i : ℕ) (q : Placement)
    (hmem : (i, q) ∈ sortedRowEntries cells) :
    (sortedRowEntries cells)[posOf i ((sortedRowEntries cells).map Prod.fst)]? =
      some (i, q) := by
  have hiS : i ∈ (sortedRowEntries cells).map Prod.fst :=
    List.mem_map.mpr ⟨(i, q), hmem, rfl⟩
  have hSE := posOf_getElem? i ((sortedRowEntries cells).map Prod.fst) hiS
  rw [List.getElem?_map] at hSE
  rcases hE : (sortedRowEntries cells)[posOf i
      ((sortedRowEntries cells).map Prod.fst)]? with _ | e
  · rw [hE] at hSE
    simp at hSE
  · rw [hE, Option.map_some'] at hSE
    injection hSE with hfst
    have heE : e ∈ sortedRowEntries cells := by
      rcases List.getElem?_eq_some.mp hE with ⟨hlt, hg⟩
      exact hg ▸ List.getElem_mem hlt
    rw [nodup_fst_eq (sortedRowEntries cells) hnd e (i, q) heE hmem hfst]

theorem keyLe_congr (a b c d : Placement)
    (h1 : a.get_four_year_rank_key = c.get_four_year_rank_key)
    (h2 : b.get_four_year_rank_key = d.get_four_year_rank_key) :
    keyLe a b = keyLe c d := by
  rw [keyLe, keyLe, h1, h2]

theorem rankColumn_order (cells : Cells) (h : allSomeCells cells) :
    ∀ (pl pl2 : Placement) (r r2 : ℕ),
      Option.some pl ∈ rankColumn cells → Option.some pl2 ∈ rankColumn cells →
      pl.four_year_rank = Option.some r → pl2.four_year_rank = Option.some r2 →
      r < r2 → keyLe pl pl2 = true := by
  intro pl pl2 r r2 hm hm2 hr hr2 hlt
  obtain ⟨i, q, hin, hpl⟩ := mem_rankColumn cells pl hm
  obtain ⟨i2, q2, hin2, hpl2⟩ := mem_rankColumn cells pl2 hm2
  have hnd := sortedRowEntries_fst_nodup cells h
  have hri : Option.some (1 + posOf i ((sortedRowEntries cells).map Prod.fst)) =
      Option.some r := by rw [hpl] at hr; exact hr
  have hri2 : Option.some (1 + posOf i2 ((sortedRowEntries cells).map Prod.fst)) =
      Option.some r2 := by rw [hpl2] at hr2; exact hr2
  injection hri with hri
  injection hri2 with hri2
  have hqE : (i, q) ∈ sortedRowEntries cells :=
    (sortedRowEntries_perm cells).mem_iff.mpr
      (List.mem_filterMap.mpr ⟨(i, Option.some q), hin, rfl⟩)
  have hqE2 : (i2, q2) ∈ sortedRowEntries cells :=
    (sortedRowEntries_perm cells).mem_iff.mpr
      (List.mem_filterMap.mpr ⟨(i2, Option.some q2), hin2, rfl⟩)
  have hAt := sorted_entry_at_pos cells hnd i q hqE
  have hAt2 := sorted_entry_at_pos cells hnd i2 q2 hqE2
  have hplt : posOf i ((sortedRowEntries cells).map Prod.fst) <
      posOf i2 ((sortedRowEntries cells).map Prod.fst) := by omega
  rcases List.getElem?_eq_some.mp hAt with ⟨hlt1, hg1⟩
  rcases List.getElem?_eq_some.mp hAt2 with ⟨hlt2, hg2⟩
  have hsorted : List.Sorted entryLE (sortedRowEntries cells) :=
    List.sorted_insertionSort entryLE _
  have hpair := List.pairwise_iff_get.mp hsorted ⟨_, hlt1⟩ ⟨_, hlt2⟩ hplt
  rw [List.get_eq_getElem, List.get_eq_getElem] at hpair
  rw [hg1, hg2] at hpair
  have hkey : keyLe pl pl2 = keyLe q q2 := by
    rw [hpl, hpl2]
    exact keyLe_congr _ _ _ _ rfl rfl
  rw [hkey]
  exact hpair

/-- Claim C2 as amended: after the Aggregator runs, **every** cell of every
column is filled (participants absent from a period and its window receive
zero-point placeholders, because the placeholder loop iterates over the whole
shared row index and the target itself is always counted), and the column's
rolling ranks are a permutation of the dense range `1..K` over *all* `K`
row-index participants, ordered by descending rolling points with ties broken
by descending own-period points; no participant keeps the unranked
sentinel. -/
theorem c2_dense_ranks_amended (cols : Table) (col : SuperEvent × Cells)
    (hcol : col ∈ process_four_years cols) :
    (∀ cell ∈ col.2, cell ≠ Option.none) ∧
      List.Perm (col.2.filterMap (fun c => c.map Placement.four_year_rank))
        ((List.range col.2.length).map (fun i => Option.some (i + 1))) ∧
      (∀ (pl pl2 : Placement) (r r2 : ℕ),
        Option.some pl ∈ col.2 → Option.some pl2 ∈ col.2 →
        pl.four_year_rank = Option.some r → pl2.four_year_rank = Option.some r2 →
        r < r2 → keyLe pl pl2 = true) := by
  rw [process_four_years] at hcol
  rcases List.mem_map.mp hcol with ⟨col0, hcol0, hceq⟩
  have hAll : allSomeCells col0.2 := accumulateAll_allSome cols col0 hcol0
  rw [← hceq]
  exact ⟨rankColumn_allSome col0.2 hAll, rankColumn_perm col0.2 hAll,
    rankColumn_order col0.2 hAll⟩

/-- Input and expected output placements for the C2 witness table. -/
def c2w_in1 : Placement :=
  { original_participant_code := Option.some "AAA", superevent_rank := Option.some 1,
    superevent_points := 30 }

def c2w_in2 : Placement :=
  { original_participant_code := Option.some "BBB", superevent_rank := Option.some 2,
    superevent_points := 10 }

def c2w_out1 : Placement :=
  { original_participant_code := Option.some "AAA", superevent_rank := Option.some 1,
    superevent_points := 30, four_year_rank := Option.some 1, four_year_points := 30 }

def c2w_out2 : Placement :=
  { original_participant_code := Option.some "BBB", superevent_rank := Option.some 2,
    superevent_points := 10, four_year_rank := Option.some 2, four_year_points := 10 }

def c2w_cells : Cells := [Option.some c2w_out1, Option.some c2w_out2]

/-- Witness for the amended C2 on a one-period, two-participant table: the
cells are all filled and carry the dense ranks `{1, 2}` ordered by the
rolling key. -/
theorem c2_dense_ranks_amended_witness :
    (∀ cell ∈ c2w_cells, cell ≠ Option.none) ∧
      List.Perm (c2w_cells.filterMap (fun c => c.map Placement.four_year_rank))
        ((List.range c2w_cells.length).map (fun i => Option.some (i + 1))) ∧
      (∀ (pl pl2 : Placement) (r r2 : ℕ),
        Option.some pl ∈ c2w_cells → Option.some pl2 ∈ c2w_cells →
        pl.four_year_rank = Option.some r → pl2.four_year_rank = Option.some r2 →
        r < r2 → keyLe pl pl2 = true) :=
  c2_dense_ranks_amended
    [({ year := 3, cat := SECategory.Championship }, [Option.some c2w_in1, Option.some c2w_in2])]
    ({ year := 3, cat := SECategory.Championship }, c2w_cells)
    (by decide)

end IIHF
